import Mathlib

/-!
Verification of the browser sentiment demo (src/app.js).

The JavaScript values flowing through the program are modelled by the
inductive type `JsVal`; numbers are modelled by rationals (the scores that
occur are finite doubles, a subset of the rationals, and no claim depends
on rounding of arithmetic that the program does not perform).  A JavaScript
computation that can throw is modelled in the `Except Unit` monad, where
`Except.error ()` stands for an uncaught exception (the only exception a
modelled path can raise is the TypeError from reading a property of null
or undefined).
-/

/-- Model of a JavaScript value (the JSON values plus undefined). -/
inductive JsVal where
  | undefined : JsVal
  | null : JsVal
  | bool (b : Bool) : JsVal
  | num (q : ℚ) : JsVal
  | str (s : String) : JsVal
  | arr (elems : List JsVal) : JsVal
  | obj (fields : List (String × JsVal)) : JsVal
deriving Repr

instance : Inhabited JsVal := ⟨JsVal.undefined⟩

/-- JavaScript truthiness of a value.  NaN does not occur in the model
    (JSON numbers are finite), so a number is truthy iff it is nonzero;
    a rational is nonzero iff its numerator is. -/
def JsVal.truthy : JsVal → Bool
  | .undefined => false
  | .null => false
  | .bool b => b
  | .num q => q.num != 0
  | .str s => s != ""
  | .arr _ => true
  | .obj _ => true

/-- Model of the ECMAScript toUpperCase on the labels that occur; the
    conversion is per character (the labels the program compares against
    are plain ASCII words). -/
def jsToUpper (s : String) : String := ⟨s.data.map Char.toUpper⟩

/-- Model of the ECMAScript trim: whitespace is removed from both ends.
    Char.isWhitespace covers the blank, tab and newline characters that a
    data file or token field realistically carries. -/
def jsTrim (s : String) : String :=
  ⟨((s.data.dropWhile Char.isWhitespace).reverse.dropWhile Char.isWhitespace).reverse⟩

/-- Property lookup in an object field list.  JSON.parse keeps the last
    occurrence of a duplicated key, hence the search over the reversed
    list; a missing key reads as undefined. -/
def lookupField (fs : List (String × JsVal)) (k : String) : JsVal :=
  match List.lookup k fs.reverse with
  | some v => v
  | none => .undefined

/-- Property access `base[k]`: throws a TypeError when the base is null or
    undefined; on an object it is field lookup; on any other value the
    properties named "label", "score", "text", "error" and "data" (the only
    names the program reads) are absent, so the access yields undefined. -/
def getProp : JsVal → String → Except Unit JsVal
  | .null, _ => .error ()
  | .undefined, _ => .error ()
  | .obj fs, k => .ok (lookupField fs k)
  | _, _ => .ok .undefined

/-- Optional-chaining property access `base?.k` (never throws): null or
    undefined base yields undefined. -/
def propD (v : JsVal) (k : String) : JsVal :=
  match v with
  | .obj fs => lookupField fs k
  | _ => .undefined

/-- Digits of a decimal numeral folded to a natural number; `none` when a
    non-digit character occurs. -/
def digitsVal (cs : List Char) : Option ℕ :=
  cs.foldl
    (fun acc c =>
      match acc with
      | none => none
      | some n => if c.isDigit then some (n * 10 + (c.toNat - 48)) else none)
    (some 0)

/-- JavaScript ToNumber on a string: surrounding whitespace is trimmed, the
    empty string is 0, and a decimal literal (optional sign, digits with an
    optional fraction, optional exponent) is parsed; anything else is NaN,
    encoded as `none`.  Hexadecimal, binary and octal literals and the
    Infinity forms are also mapped to `none`; they can only influence the
    sort order of candidates whose score is such a string, on which no
    claim depends. -/
def jsStrToNum (s : String) : Option ℚ :=
  let t := jsTrim s
  if t = "" then some 0 else
  let cs := t.toList
  let signAndRest : ℚ × List Char :=
    match cs with
    | c :: rest =>
      if c == '-' then (-1, rest)
      else if c == '+' then (1, rest)
      else (1, c :: rest)
    | [] => (1, [])
  let sign := signAndRest.1
  let body := signAndRest.2
  let mant := body.takeWhile (fun c => !(c == 'e' || c == 'E'))
  let expPart := body.dropWhile (fun c => !(c == 'e' || c == 'E'))
  let ip := mant.takeWhile (fun c => !(c == '.'))
  let fpAll := mant.dropWhile (fun c => !(c == '.'))
  let fp := match fpAll with | _ :: r => r | [] => []
  if ip.isEmpty && fp.isEmpty then none else
  let expVal : Option ℤ :=
    match expPart with
    | [] => some 0
    | _ :: ecs =>
      let esAndDigits : ℤ × List Char :=
        match ecs with
        | c :: r =>
          if c == '-' then (-1, r)
          else if c == '+' then (1, r)
          else (1, c :: r)
        | [] => (1, [])
      if esAndDigits.2.isEmpty then none
      else (digitsVal esAndDigits.2).map (fun n => esAndDigits.1 * n)
  match digitsVal ip, digitsVal fp, expVal with
  | some i, some f, some e =>
    let base : ℚ := (i : ℚ) + (f : ℚ) / ((10 : ℚ) ^ fp.length)
    let scale : ℚ := if 0 ≤ e then (10 : ℚ) ^ e.toNat else ((10 : ℚ) ^ (-e).toNat)⁻¹
    some (sign * base * scale)
  | _, _, _ => none

/-- JavaScript ToNumber on a value, with NaN encoded as `none`.  An array
    is converted through its join string: the empty array is 0, an array
    of two or more elements joins with a comma and is NaN, and a singleton
    array converts as the string of its element (undefined and null join
    as the empty string, a boolean joins as a word and is NaN). -/
def jsToNumber : JsVal → Option ℚ
  | .undefined => none
  | .null => some 0
  | .bool b => some (if b then 1 else 0)
  | .num q => some q
  | .str s => jsStrToNum s
  | .obj _ => none
  | .arr [] => some 0
  | .arr [JsVal.undefined] => some 0
  | .arr [JsVal.null] => some 0
  | .arr [JsVal.bool _] => none
  | .arr [x] => jsToNumber x
  | .arr (_ :: _ :: _) => none

/-- Sort key of one comparator operand at line 106 of app.js: the
    expression `c.score ?? 0` converted by ToNumber.  Reading `.score`
    throws when the candidate is null or undefined. -/
def cmpKey (c : JsVal) : Except Unit (Option ℚ) := do
  let v ← getProp c "score"
  let w := match v with
    | .null => JsVal.num 0
    | .undefined => JsVal.num 0
    | v => v
  pure (jsToNumber w)

/-- The comparator of line 106, `(b.score ?? 0) - (a.score ?? 0)`; the b
    operand is evaluated first as in the source expression, and a NaN
    result is treated as 0, as SortCompare does. -/
def jsCompare (a b : JsVal) : Except Unit ℚ := do
  let kb ← cmpKey b
  let ka ← cmpKey a
  pure (match kb, ka with
    | some x, some y => x - y
    | _, _ => 0)

/-- Stable insertion of one element into an already sorted list, placing x
    before the first y for which the comparator does not put x after y. -/
def insertSorted (x : JsVal) : List JsVal → Except Unit (List JsVal)
  | [] => .ok [x]
  | y :: ys => do
    let c ← jsCompare x y
    if c ≤ 0 then pure (x :: y :: ys)
    else do
      let zs ← insertSorted x ys
      pure (y :: zs)

/-- Model of `candidates.sort(comparator)` at line 106: a stable insertion
    sort.  For a consistent comparator the stable sorted permutation is
    unique, so this agrees with any conforming Array.prototype.sort; the
    source mutates the array in place, which the caller models by using
    the returned list as the new contents of the array. -/
def jsSort : List JsVal → Except Unit (List JsVal)
  | [] => .ok []
  | x :: xs => do
    let s ← jsSort xs
    insertSorted x s

/-- The record returned by normalizeHfResponse on success. -/
structure NormResult where
  label : String
  score : ℚ
  verdict : String
deriving DecidableEq, Repr

/-- The decision rule of lines 113 to 115 of app.js: strict threshold at
    one half (the 0.5 of the source is exactly `mkRat 1 2`). -/
def decideVerdict (label : String) (score : ℚ) : String :=
  if label = "POSITIVE" ∧ mkRat 1 2 < score then "positive"
  else if label = "NEGATIVE" ∧ mkRat 1 2 < score then "negative"
  else "neutral"

/-- The "label" property of the top candidate (read at lines 108 and 110,
    always under a truthiness guard, so the base is never null or
    undefined and the access cannot throw): field lookup on an object,
    undefined on every other value. -/
def labelOf (t : JsVal) : JsVal :=
  match t with
  | .obj fs => lookupField fs "label"
  | _ => .undefined

/-- The "score" property of the top candidate (line 111, same guard). -/
def scoreOf (t : JsVal) : JsVal :=
  match t with
  | .obj fs => lookupField fs "score"
  | _ => .undefined

/-- Line 111: `typeof top.score === "number" ? top.score : 0`. -/
def scoreNumOf (t : JsVal) : ℚ :=
  match scoreOf t with
  | .num q => q
  | _ => 0

/-- Lines 107 to 117: validate the top candidate and derive the result.
    The check `!top || typeof top.label !== "string"` short-circuits, so a
    falsy top is rejected before its label is read. -/
def interpretTop (top : JsVal) : Option NormResult :=
  if top.truthy = false then none
  else
    match labelOf top with
    | .str s =>
      some { label := jsToUpper s
             score := scoreNumOf top
             verdict := decideVerdict (jsToUpper s) (scoreNumOf top) }
    | _ => none

/-- Lines 104 to 117 applied to an extracted candidate list: the empty
    list yields null before the sort runs; otherwise the list is sorted in
    place (the returned list is the final contents of the array) and the
    first element of the sorted list is interpreted. -/
def runCandidates (cands : List JsVal) : Except Unit (Option NormResult × List JsVal) :=
  if cands.isEmpty then .ok (none, cands)
  else (jsSort cands).map (fun s => (interpretTop s.headI, s))

/-- Where the candidate list comes from. -/
inductive CandSrc where
  | nested (inner : List JsVal) (rest : List JsVal) : CandSrc
  | flat (elems : List JsVal) : CandSrc
  | nothing : CandSrc

/-- Lines 96 to 102 of app.js: an array whose first element is an array
    uses that inner array as the candidate list; any other array is used
    directly; any other value leaves candidates null. -/
def candSrc : JsVal → CandSrc
  | .arr (.arr inner :: rest) => .nested inner rest
  | .arr elems => .flat elems
  | _ => .nothing

/-- Lines 92 to 118 of app.js, normalizeHfResponse.  The returned pair
    carries the result of the function together with the value of the
    argument after the call, since the sort at line 106 reorders the
    candidate array in place.  `Except.error ()` models the TypeError
    raised when the comparator reads the score of a null or undefined
    candidate. -/
def normalizeHfResponse (json : JsVal) : Except Unit (Option NormResult × JsVal) :=
  if json.truthy = false then .ok (none, json)
  else
    match candSrc json with
    | .nested inner rest =>
      (runCandidates inner).map (fun p => (p.1, JsVal.arr (JsVal.arr p.2 :: rest)))
    | .flat elems =>
      (runCandidates elems).map (fun p => (p.1, JsVal.arr p.2))
    | .nothing => .ok (none, json)

/-- The Dataset Store of line 9 of app.js: loaded review texts and the
    loaded flag. -/
structure Store where
  reviews : List String
  loaded : Bool
deriving DecidableEq, Repr

/-- Line 182 of app.js applied to one parsed row: the expression
    `(r && typeof r.text === "string") ? r.text.trim() : ""`.  The
    truthiness guard keeps the property read from throwing on a null
    row, and a non-string text field maps to the empty string. -/
def rowText (r : JsVal) : String :=
  if r.truthy = false then ""
  else
    match propD r "text" with
    | .str s => jsTrim s
    | _ => ""

/-- Lines 181 to 183: the texts of all rows, with results that are empty
    after trimming dropped. -/
def extractTexts (rows : List JsVal) : List String :=
  (rows.map rowText).filter (fun t => t.length > 0)

/-- Lines 185 to 186: the Store contents written on a completed parse. -/
def ingestRows (rows : List JsVal) : Store :=
  { reviews := extractTexts rows
    loaded := decide (0 < (extractTexts rows).length) }

/-- Line 180 and the subsequent map call: `results?.data || []` coerced to
    a row list.  A falsy data field is replaced by the empty array; calling
    map on a truthy non-array value throws a TypeError, modelled by the
    error case. -/
def rowsOf (results : JsVal) : Except Unit (List JsVal) :=
  let d := propD results "data"
  if d.truthy = false then .ok []
  else
    match d with
    | .arr l => .ok l
    | _ => .error ()

/-- How the promise returned by loadTSV settles. -/
inductive PromiseState where
  | resolved : PromiseState
  | rejected : PromiseState
deriving DecidableEq, Repr

/-- The outcome of Papa.parse as delivered to the two callbacks installed
    at lines 178 and 203 of app.js. -/
inductive ParseOutcome where
  | complete (results : JsVal) : ParseOutcome
  | failure (msg : String) : ParseOutcome

/-- Everything loadTSV makes observable: the Store after the call, the
    status chip mode and text, the error banner message if any, and how
    the returned promise settles. -/
structure LoadOutcome where
  store : Store
  statusMode : String
  statusText : String
  errorMsg : Option String
  promise : PromiseState
deriving Repr

/-- Lines 165 to 210, loadTSV.  The Store is reset to empty and not loaded
    before parsing starts; the complete callback rebuilds it inside a try
    block whose catch arm reports a parse error while the Store keeps its
    reset value; the error callback reports a load failure; each of the
    three arms calls resolve.  The message interpolated from a caught
    exception or transport error object is abbreviated to its fixed
    prefix; no claim inspects that detail. -/
def loadTSV (pa : ParseOutcome) : LoadOutcome :=
  let reset : Store := { reviews := [], loaded := false }
  match pa with
  | .complete results =>
    match rowsOf results with
    | .ok rows =>
      let st := ingestRows rows
      if st.loaded then
        { store := st, statusMode := "ready", statusText := "TSV loaded",
          errorMsg := none, promise := .resolved }
      else
        { store := st, statusMode := "error", statusText := "No reviews found in TSV",
          errorMsg := some "No valid \"text\" column values found in reviews_test.tsv.",
          promise := .resolved }
    | .error _ =>
      { store := reset, statusMode := "error", statusText := "Parse error",
        errorMsg := some "Failed to parse TSV: ", promise := .resolved }
  | .failure m =>
    { store := reset, statusMode := "error", statusText := "Load failed",
      errorMsg := some ("Failed to load TSV: " ++ m), promise := .resolved }

/-- Lines 78 to 80 of app.js: a uniformly random element of a non-empty
    array.  The draw `Math.floor(Math.random() * arr.length)` is modelled
    by the free index `pick` reduced modulo the length. -/
def chooseRandom (arr : List String) (pick : ℕ) : String :=
  arr.getD (pick % arr.length) ""

/-- The single network request analyzeRandom can issue: the review text in
    the JSON body and the optional bearer header of lines 238 to 247. -/
structure Request where
  inputs : String
  auth : Option String
deriving DecidableEq, Repr

/-- The outcome of the one fetch call: either the promise rejects with a
    network error, or a response arrives with a status code and a body
    whose JSON parse may fail. -/
inductive FetchOutcome where
  | netError (msg : String) : FetchOutcome
  | response (status : ℕ) (body : Except Unit JsVal) : FetchOutcome

/-- Everything analyzeRandom makes observable: the message given to
    showError if any, the request issued (none when no network call was
    made), the writes to the busy marker (busySet records that aria-busy
    was set to true, busyFinal the last value written, none when never
    written), the renderSentiment calls in order, the displayed review
    text, whether the invocation finished by an uncaught exception, and
    the Store after the call (analyzeRandom never writes the Store). -/
structure AnalyzeOutcome where
  errorMsg : Option String
  request : Option Request
  busySet : Bool
  busyFinal : Option Bool
  rendered : List (Option NormResult)
  reviewShown : Option String
  threw : Bool
  store : Store
deriving Repr

/-- The precondition message of line 224 of app.js. -/
def notLoadedMsg : String :=
  "Data not loaded. Click \"Reload TSV\" and ensure reviews_test.tsv is present with a \"text\" column."

/-- Lines 257 to 260: best effort extraction of a textual error field from
    the body of a non-success response; a parse failure or any other shape
    yields the empty detail. -/
def errDetail (body : Except Unit JsVal) : String :=
  match body with
  | .ok v =>
    match propD v "error" with
    | .str s => " — " ++ s
    | _ => ""
  | .error _ => ""

/-- Lines 261 to 269: the status-specific error message of a non-success
    response. -/
def apiErrorMsg (status : ℕ) (detail : String) : String :=
  if status = 401 then
    "Unauthorized (401). Invalid or missing token" ++ detail
      ++ ". You can try without a token or provide a valid one."
  else if status = 429 then
    "Rate limited (429). Please wait and try again" ++ detail
      ++ ". Supplying your token may help."
  else if status = 503 then
    "Model loading (503). The model is warming up. Please retry in a moment" ++ detail ++ "."
  else
    "API error (" ++ toString status ++ ")." ++ detail

/-- Lines 221 to 285, analyzeRandom, as a function of the ambient Store,
    the token field contents, the random draw and the outcome of the one
    fetch call.  A response is ok when its status lies in 200 to 299.  On
    the success path the response data runs through normalizeHfResponse;
    when that call throws (see the comparator model) the async function
    finishes by rejection with the busy marker still set, recorded by
    threw := true and busyFinal := none. -/
def analyzeRandom (store : Store) (token : String) (pick : ℕ) (fo : FetchOutcome) :
    AnalyzeOutcome :=
  if store.loaded = false ∨ store.reviews.length = 0 then
    { errorMsg := some notLoadedMsg, request := none, busySet := false,
      busyFinal := none, rendered := [], reviewShown := none, threw := false,
      store := store }
  else
    let text := chooseRandom store.reviews pick
    let shown := if text = "" then "(Empty review)" else text
    let tok := jsTrim token
    let req : Request :=
      { inputs := text, auth := if tok = "" then none else some ("Bearer " ++ tok) }
    match fo with
    | .netError m =>
      { errorMsg := some ("Network error: " ++ m), request := some req, busySet := true,
        busyFinal := some false, rendered := [none], reviewShown := some shown,
        threw := false, store := store }
    | .response status body =>
      if status < 200 ∨ 299 < status then
        { errorMsg := some (apiErrorMsg status (errDetail body)), request := some req,
          busySet := true, busyFinal := some false, rendered := [none],
          reviewShown := some shown, threw := false, store := store }
      else
        match body with
        | .error _ =>
          { errorMsg := some "Invalid JSON from API: ", request := some req,
            busySet := true, busyFinal := some false, rendered := [none],
            reviewShown := some shown, threw := false, store := store }
        | .ok data =>
          match normalizeHfResponse data with
          | .error _ =>
            { errorMsg := none, request := some req, busySet := true,
              busyFinal := none, rendered := [none], reviewShown := some shown,
              threw := true, store := store }
          | .ok p =>
            { errorMsg := none, request := some req, busySet := true,
              busyFinal := some false, rendered := [none, p.1],
              reviewShown := some shown, threw := false, store := store }

/-- Does the comparator key of a candidate evaluate to a number (no throw,
    no NaN). -/
def keyOk (c : JsVal) : Bool :=
  match cmpKey c with
  | .ok (some _) => true
  | _ => false

/-- The numeric comparator key of a candidate, defaulting to 0. -/
def scoreKeyD (c : JsVal) : ℚ :=
  match cmpKey c with
  | .ok (some q) => q
  | _ => 0

/-- The first element of a list attaining the maximal comparator key: the
    element a stable descending sort moves to the front. -/
def topOfListD : List JsVal → JsVal
  | [] => .undefined
  | [c] => c
  | c :: c2 :: cs =>
    if scoreKeyD (topOfListD (c2 :: cs)) ≤ scoreKeyD c then c else topOfListD (c2 :: cs)

/-- Key-based stable insertion, the total counterpart of insertSorted. -/
def insertD (x : JsVal) : List JsVal → List JsVal
  | [] => [x]
  | y :: ys => if scoreKeyD y ≤ scoreKeyD x then x :: y :: ys else y :: insertD x ys

/-- Key-based stable insertion sort, the total counterpart of jsSort. -/
def sortD : List JsVal → List JsVal
  | [] => []
  | x :: xs => insertD x (sortD xs)

/-- The observable compared by the claims about the decision rule: the
    verdict field of the result of normalizeHfResponse, when any. -/
def verdictOf (j : JsVal) : Except Unit (Option String) :=
  (normalizeHfResponse j).map (fun p => p.1.map (fun r => r.verdict))

/-- The candidate list a value feeds into the selection step. -/
def candidateList (j : JsVal) : List JsVal :=
  match candSrc j with
  | .nested inner _ => inner
  | .flat es => es
  | .nothing => []

/-- The row filtering rule as section 4.1 of the specification words it:
    take the text field if and only if it is a string, trim whitespace,
    and discard results that are empty after trimming.  This is the
    refinement counterpart of rowText and is written from the words of the
    specification, to be compared with the pipeline of the source. -/
def specKeepRow (r : JsVal) : Option String :=
  if r.truthy = false then none
  else
    match propD r "text" with
    | .str s => if jsTrim s = "" then none else some (jsTrim s)
    | _ => none

/-- The example row set of the ingestion claim. -/
def exRows : List JsVal :=
  [.obj [("text", .str " good ")],
   .obj [("text", .str "")],
   .obj [("text", .num (mkRat 42 1))],
   .obj [("text", .str "bad movie")]]

/-- A candidate with label POSITIVE and score 0.9. -/
def objPosW : JsVal := .obj [("label", .str "POSITIVE"), ("score", .num (mkRat 9 10))]

/-- A candidate with label NEGATIVE and score 0.2. -/
def objNegW : JsVal := .obj [("label", .str "NEGATIVE"), ("score", .num (mkRat 2 10))]

/-- A candidate with an unrelated label and score 0.1. -/
def objAltW : JsVal := .obj [("label", .str "WHATEVER"), ("score", .num (mkRat 1 10))]

/-- A response whose single candidate scores exactly one half. -/
def exHalfIn : JsVal :=
  .arr [.arr [.obj [("label", .str "Positive"), ("score", .num (mkRat 1 2))]]]

/-- The normalized record produced for exHalfIn. -/
def exHalfRes : NormResult := { label := "POSITIVE", score := mkRat 1 2, verdict := "neutral" }

/-- A response whose candidate list is not in descending score order. -/
def exMixIn : JsVal := .arr [.arr [objNegW, objPosW]]

/-- The value of the exMixIn argument after normalizeHfResponse has sorted
    the candidate list in place. -/
def exMixOut : JsVal := .arr [.arr [objPosW, objNegW]]

theorem okBind {ε α β : Type} (a : α) (f : α → Except ε β) :
    ((Except.ok a : Except ε α) >>= f) = f a := rfl

theorem errorBind {ε α β : Type} (e : ε) (f : α → Except ε β) :
    ((Except.error e : Except ε α) >>= f) = .error e := rfl

theorem cmpKey_of_keyOk {c : JsVal} (h : keyOk c = true) :
    cmpKey c = .ok (some (scoreKeyD c)) := by
  unfold keyOk at h
  unfold scoreKeyD
  cases hc : cmpKey c with
  | error e => rw [hc] at h; simp at h
  | ok v =>
    cases v with
    | none => rw [hc] at h; simp at h
    | some q => rfl

theorem jsCompare_of_keyOk {a b : JsVal} (ha : keyOk a = true) (hb : keyOk b = true) :
    jsCompare a b = .ok (scoreKeyD b - scoreKeyD a) := by
  unfold jsCompare
  rw [cmpKey_of_keyOk hb, okBind, cmpKey_of_keyOk ha, okBind]
  rfl

theorem insertSorted_of_keyOk {x : JsVal} (hx : keyOk x = true) :
    ∀ l : List JsVal, (∀ y ∈ l, keyOk y = true) →
      insertSorted x l = .ok (insertD x l)
  | [], _ => rfl
  | y :: ys, hl => by
    have hy : keyOk y = true := hl y (List.mem_cons_self y ys)
    have hys : ∀ z ∈ ys, keyOk z = true := fun z hz => hl z (List.mem_cons_of_mem y hz)
    unfold insertSorted insertD
    rw [jsCompare_of_keyOk hx hy, okBind]
    by_cases hle : scoreKeyD y ≤ scoreKeyD x
    · rw [if_pos (sub_nonpos.mpr hle), if_pos hle]
      rfl
    · rw [if_neg (fun hc => hle (sub_nonpos.mp hc)), if_neg hle]
      rw [insertSorted_of_keyOk hx ys hys, okBind]
      rfl

theorem mem_insertD {z x : JsVal} : ∀ {l : List JsVal}, z ∈ insertD x l ↔ z = x ∨ z ∈ l := by
  intro l
  induction l with
  | nil => simp [insertD]
  | cons y ys ih =>
    unfold insertD
    by_cases hle : scoreKeyD y ≤ scoreKeyD x
    · rw [if_pos hle]; simp
    · rw [if_neg hle]
      simp only [List.mem_cons, ih]
      tauto

theorem mem_sortD {z : JsVal} : ∀ {l : List JsVal}, z ∈ sortD l ↔ z ∈ l := by
  intro l
  induction l with
  | nil => simp [sortD]
  | cons x xs ih =>
    unfold sortD
    rw [mem_insertD, ih]
    simp

theorem jsSort_of_keyOk :
    ∀ cs : List JsVal, (∀ c ∈ cs, keyOk c = true) → jsSort cs = .ok (sortD cs)
  | [], _ => rfl
  | x :: xs, h => by
    have hx : keyOk x = true := h x (List.mem_cons_self x xs)
    have hxs : ∀ c ∈ xs, keyOk c = true := fun c hc => h c (List.mem_cons_of_mem x hc)
    unfold jsSort sortD
    rw [jsSort_of_keyOk xs hxs, okBind]
    exact insertSorted_of_keyOk hx (sortD xs) (fun y hy => hxs y (mem_sortD.mp hy))

theorem length_insertD {x : JsVal} : ∀ l : List JsVal, (insertD x l).length = l.length + 1
  | [] => rfl
  | y :: ys => by
    unfold insertD
    by_cases hle : scoreKeyD y ≤ scoreKeyD x
    · rw [if_pos hle]; rfl
    · rw [if_neg hle]
      simp [length_insertD ys]

theorem length_sortD : ∀ l : List JsVal, (sortD l).length = l.length
  | [] => rfl
  | x :: xs => by
    unfold sortD
    rw [length_insertD, length_sortD xs]
    simp

theorem sortD_ne_nil {l : List JsVal} (h : l ≠ []) : sortD l ≠ [] := by
  intro hs
  apply h
  have hlen := length_sortD l
  rw [hs] at hlen
  exact List.length_eq_zero.mp hlen.symm

theorem topOfListD_cons_ne (c : JsVal) {cs : List JsVal} (h : cs ≠ []) :
    topOfListD (c :: cs) =
      if scoreKeyD (topOfListD cs) ≤ scoreKeyD c then c else topOfListD cs := by
  cases cs with
  | nil => exact absurd rfl h
  | cons c2 cs2 => rfl

theorem headI_insertD_ne (x : JsVal) {l : List JsVal} (h : l ≠ []) :
    (insertD x l).headI =
      if scoreKeyD l.headI ≤ scoreKeyD x then x else l.headI := by
  cases l with
  | nil => exact absurd rfl h
  | cons y ys =>
    unfold insertD
    by_cases hle : scoreKeyD y ≤ scoreKeyD x
    · rw [if_pos hle]
      simp [hle]
    · rw [if_neg hle]
      simp [hle]

theorem headI_sortD_eq_top : ∀ cs : List JsVal, (sortD cs).headI = topOfListD cs
  | [] => rfl
  | c :: cs => by
    unfold sortD
    by_cases hnil : cs = []
    · subst hnil
      rfl
    · rw [headI_insertD_ne c (sortD_ne_nil hnil), topOfListD_cons_ne c hnil]
      rw [headI_sortD_eq_top cs]

theorem scoreKeyD_le_top :
    ∀ (cs : List JsVal), ∀ c ∈ cs, scoreKeyD c ≤ scoreKeyD (topOfListD cs) := by
  intro cs
  induction cs with
  | nil => intro c hc; cases hc
  | cons x xs ih =>
    intro c hc
    by_cases hnil : xs = []
    · subst hnil
      rcases List.mem_singleton.mp hc with rfl
      exact le_refl _
    · rw [topOfListD_cons_ne x hnil]
      rcases List.mem_cons.mp hc with rfl | hmem
      · by_cases hle : scoreKeyD (topOfListD xs) ≤ scoreKeyD c
        · rw [if_pos hle]
        · rw [if_neg hle]
          exact le_of_not_le hle
      · by_cases hle : scoreKeyD (topOfListD xs) ≤ scoreKeyD x
        · rw [if_pos hle]
          exact le_trans (ih c hmem) hle
        · rw [if_neg hle]
          exact ih c hmem

theorem topOfListD_mem : ∀ {cs : List JsVal}, cs ≠ [] → topOfListD cs ∈ cs := by
  intro cs
  induction cs with
  | nil => intro h; exact absurd rfl h
  | cons x xs ih =>
    intro _
    by_cases hnil : xs = []
    · subst hnil
      exact List.mem_cons_self x []
    · rw [topOfListD_cons_ne x hnil]
      by_cases hle : scoreKeyD (topOfListD xs) ≤ scoreKeyD x
      · rw [if_pos hle]; exact List.mem_cons_self x xs
      · rw [if_neg hle]
        exact List.mem_cons_of_mem x (ih hnil)

theorem topOfListD_eraseIdx :
    ∀ (cs : List JsVal) (i : ℕ) (hi : i < cs.length),
      scoreKeyD (cs.get ⟨i, hi⟩) < scoreKeyD (topOfListD cs) →
      topOfListD (cs.eraseIdx i) = topOfListD cs := by
  intro cs
  induction cs with
  | nil => intro i hi; exact absurd hi (by simp)
  | cons c cs ih =>
    intro i hi h
    cases i with
    | zero =>
      rw [List.eraseIdx_cons_zero]
      by_cases hnil : cs = []
      · subst hnil
        exact absurd h (lt_irrefl _)
      · rw [topOfListD_cons_ne c hnil] at h ⊢
        by_cases hkc : scoreKeyD (topOfListD cs) ≤ scoreKeyD c
        · rw [if_pos hkc] at h
          exact absurd h (lt_irrefl _)
        · rw [if_neg hkc]
    | succ i =>
      rw [List.eraseIdx_cons_succ]
      have hi' : i < cs.length := by simpa using hi
      have hnil : cs ≠ [] := by
        intro e
        rw [e] at hi'
        exact absurd hi' (by simp)
      have hget : (c :: cs).get ⟨i + 1, hi⟩ = cs.get ⟨i, hi'⟩ := rfl
      rw [hget] at h
      rw [topOfListD_cons_ne c hnil] at h ⊢
      by_cases hkc : scoreKeyD (topOfListD cs) ≤ scoreKeyD c
      · rw [if_pos hkc] at h
        rw [if_pos hkc]
        by_cases hen : cs.eraseIdx i = []
        · rw [hen]
          rfl
        · rw [topOfListD_cons_ne c hen]
          have hsub : scoreKeyD (topOfListD (cs.eraseIdx i)) ≤ scoreKeyD c :=
            le_trans
              (scoreKeyD_le_top cs _ (List.eraseIdx_subset cs i (topOfListD_mem hen)))
              hkc
          rw [if_pos hsub]
      · rw [if_neg hkc] at h ⊢
        have hen : cs.eraseIdx i ≠ [] := by
          intro e
          have hlen : (cs.eraseIdx i).length = cs.length - 1 :=
            List.length_eraseIdx_of_lt hi'
          rw [e] at hlen
          simp at hlen
          have hone : cs.length = 1 := by
            have hpos : 0 < cs.length := List.length_pos.mpr hnil
            omega
          rcases List.length_eq_one.mp hone with ⟨a, rfl⟩
          have hi0 : i = 0 := by
            simp at hi'
            exact hi'
          subst hi0
          exact absurd h (lt_irrefl _)
        rw [topOfListD_cons_ne c hen, ih i hi' h, if_neg hkc]

theorem topOfListD_set :
    ∀ (cs : List JsVal) (i : ℕ) (hi : i < cs.length) (c' : JsVal),
      scoreKeyD (cs.get ⟨i, hi⟩) < scoreKeyD (topOfListD cs) →
      scoreKeyD c' < scoreKeyD (topOfListD cs) →
      topOfListD (cs.set i c') = topOfListD cs := by
  intro cs
  induction cs with
  | nil => intro i hi; exact absurd hi (by simp)
  | cons c cs ih =>
    intro i hi c' h hc'
    cases i with
    | zero =>
      rw [show (c :: cs).set 0 c' = c' :: cs from rfl]
      by_cases hnil : cs = []
      · subst hnil
        exact absurd h (lt_irrefl _)
      · rw [topOfListD_cons_ne c hnil] at h hc' ⊢
        by_cases hkc : scoreKeyD (topOfListD cs) ≤ scoreKeyD c
        · rw [if_pos hkc] at h
          exact absurd h (lt_irrefl _)
        · rw [if_neg hkc] at hc'
          rw [if_neg hkc]
          rw [topOfListD_cons_ne c' hnil, if_neg (not_le.mpr hc')]
    | succ i =>
      rw [show (c :: cs).set (i + 1) c' = c :: cs.set i c' from rfl]
      have hi' : i < cs.length := by simpa using hi
      have hnil : cs ≠ [] := by
        intro e
        rw [e] at hi'
        exact absurd hi' (by simp)
      have hget : (c :: cs).get ⟨i + 1, hi⟩ = cs.get ⟨i, hi'⟩ := rfl
      rw [hget] at h
      have hsn : cs.set i c' ≠ [] := by
        intro e
        have hlen : (cs.set i c').length = cs.length := List.length_set cs i c'
        rw [e] at hlen
        exact hnil (List.length_eq_zero.mp hlen.symm)
      rw [topOfListD_cons_ne c hnil] at h hc' ⊢
      by_cases hkc : scoreKeyD (topOfListD cs) ≤ scoreKeyD c
      · rw [if_pos hkc] at h hc'
        rw [if_pos hkc]
        rw [topOfListD_cons_ne c hsn]
        have hsub : scoreKeyD (topOfListD (cs.set i c')) ≤ scoreKeyD c := by
          rcases List.mem_or_eq_of_mem_set (topOfListD_mem hsn) with hmem | heq
          · exact le_trans (scoreKeyD_le_top cs _ hmem) hkc
          · rw [heq]
            exact le_of_lt hc'
        rw [if_pos hsub]
      · rw [if_neg hkc] at h hc'
        rw [if_neg hkc]
        rw [topOfListD_cons_ne c hsn, ih i hi' c' h hc', if_neg hkc]

theorem runCandidates_of_keyOk {cs : List JsVal} (hne : cs ≠ [])
    (h : ∀ c ∈ cs, keyOk c = true) :
    runCandidates cs = .ok (interpretTop (topOfListD cs), sortD cs) := by
  unfold runCandidates
  have hie : cs.isEmpty = false := by
    cases cs with
    | nil => exact absurd rfl hne
    | cons a as => rfl
  rw [hie]
  rw [if_neg (by simp)]
  rw [jsSort_of_keyOk cs h]
  rw [show (Except.ok (sortD cs)).map
        (fun s => (interpretTop s.headI, s)) = .ok (interpretTop (sortD cs).headI, sortD cs)
      from rfl]
  rw [headI_sortD_eq_top]

theorem norm_nested (inner rest : List JsVal) :
    normalizeHfResponse (.arr (.arr inner :: rest)) =
      (runCandidates inner).map (fun p => (p.1, JsVal.arr (JsVal.arr p.2 :: rest))) := rfl

theorem candSrc_flat {elems : List JsVal}
    (h : ∀ inner rest, elems ≠ JsVal.arr inner :: rest) :
    candSrc (.arr elems) = .flat elems := by
  cases elems with
  | nil => rfl
  | cons x xs =>
    cases x with
    | arr inner => exact absurd rfl (h inner xs)
    | undefined => rfl
    | null => rfl
    | bool b => rfl
    | num q => rfl
    | str s => rfl
    | obj fs => rfl

theorem norm_flat {elems : List JsVal}
    (h : ∀ inner rest, elems ≠ JsVal.arr inner :: rest) :
    normalizeHfResponse (.arr elems) =
      (runCandidates elems).map (fun p => (p.1, JsVal.arr p.2)) := by
  unfold normalizeHfResponse
  rw [candSrc_flat h]
  rfl

theorem candSrc_nothing {j : JsVal} (h : ∀ xs, j ≠ JsVal.arr xs) :
    candSrc j = .nothing := by
  cases j with
  | arr xs => exact absurd rfl (h xs)
  | undefined => rfl
  | null => rfl
  | bool b => rfl
  | num q => rfl
  | str s => rfl
  | obj fs => rfl

theorem norm_not_arr {j : JsVal} (h : ∀ xs, j ≠ JsVal.arr xs) :
    normalizeHfResponse j = .ok (none, j) := by
  unfold normalizeHfResponse
  rw [candSrc_nothing h]
  split
  · rfl
  · rfl

theorem verdictOf_nested_of_keyOk {cs : List JsVal} (hne : cs ≠ [])
    (h : ∀ c ∈ cs, keyOk c = true) :
    verdictOf (.arr [.arr cs]) =
      .ok ((interpretTop (topOfListD cs)).map (fun r => r.verdict)) := by
  unfold verdictOf
  rw [norm_nested, runCandidates_of_keyOk hne h]
  rfl

theorem interpretTop_verdict {t : JsVal} {r : NormResult} (h : interpretTop t = some r) :
    r.verdict = decideVerdict r.label r.score := by
  unfold interpretTop at h
  split at h
  · exact absurd h (by simp)
  · split at h
    all_goals first
      | (injection h with h; rw [← h])
      | exact absurd h (by simp)

theorem runCandidates_ok_some {cs : List JsVal} {r : NormResult} {s : List JsVal}
    (h : runCandidates cs = .ok (some r, s)) :
    interpretTop s.headI = some r := by
  unfold runCandidates at h
  split at h
  · simp at h
  · rcases hs : jsSort cs with e | s0
    · rw [hs] at h
      exact absurd h (by simp [Except.map])
    · rw [hs] at h
      rw [show (Except.ok s0).map (fun s => (interpretTop s.headI, s))
            = .ok (interpretTop s0.headI, s0) from rfl] at h
      injection h with h
      have h1 : interpretTop s0.headI = some r := congrArg Prod.fst h
      have h2 : s0 = s := congrArg Prod.snd h
      rw [← h2]
      exact h1

theorem norm_ok_some {json : JsVal} {r : NormResult} {j' : JsVal}
    (h : normalizeHfResponse json = .ok (some r, j')) :
    ∃ t, interpretTop t = some r := by
  have hrun : ∀ (cs : List JsVal) (g : List JsVal → JsVal),
      (runCandidates cs).map (fun p => (p.1, g p.2)) = .ok (some r, j') →
      ∃ t, interpretTop t = some r := by
    intro cs g hmap
    rcases hrc : runCandidates cs with e | ⟨p1, p2⟩
    · rw [hrc] at hmap
      simp [Except.map] at hmap
    · rw [hrc] at hmap
      simp only [Except.map, Except.ok.injEq, Prod.mk.injEq] at hmap
      exact ⟨p2.headI, runCandidates_ok_some (hmap.1 ▸ hrc)⟩
  cases json with
  | arr elems =>
    cases elems with
    | nil =>
      rw [norm_flat (by intro inner rest; simp)] at h
      exact hrun [] JsVal.arr h
    | cons x xs =>
      cases x with
      | arr inner =>
        rw [norm_nested] at h
        exact hrun inner (fun s => JsVal.arr (JsVal.arr s :: xs)) h
      | undefined =>
        rw [norm_flat (by intro inner rest; simp)] at h
        exact hrun _ JsVal.arr h
      | null =>
        rw [norm_flat (by intro inner rest; simp)] at h
        exact hrun _ JsVal.arr h
      | bool b =>
        rw [norm_flat (by intro inner rest; simp)] at h
        exact hrun _ JsVal.arr h
      | num q =>
        rw [norm_flat (by intro inner rest; simp)] at h
        exact hrun _ JsVal.arr h
      | str s =>
        rw [norm_flat (by intro inner rest; simp)] at h
        exact hrun _ JsVal.arr h
      | obj fs =>
        rw [norm_flat (by intro inner rest; simp)] at h
        exact hrun _ JsVal.arr h
  | undefined =>
    rw [norm_not_arr (by intro xs; simp)] at h
    simp at h
  | null =>
    rw [norm_not_arr (by intro xs; simp)] at h
    simp at h
  | bool b =>
    rw [norm_not_arr (by intro xs; simp)] at h
    simp at h
  | num q =>
    rw [norm_not_arr (by intro xs; simp)] at h
    simp at h
  | str s =>
    rw [norm_not_arr (by intro xs; simp)] at h
    simp at h
  | obj fs =>
    rw [norm_not_arr (by intro xs; simp)] at h
    simp at h

/-- C1: whenever normalizeHfResponse produces a result, its verdict is
    determined from the uppercased label and the score by the strict
    threshold rule: POSITIVE with score above one half is positive,
    otherwise NEGATIVE with score above one half is negative, otherwise
    neutral; in particular a score of exactly one half yields neutral. -/
theorem claim_C1 :
    ∀ (json : JsVal) (r : NormResult) (j' : JsVal),
      normalizeHfResponse json = .ok (some r, j') →
      r.verdict = (if r.label = "POSITIVE" ∧ mkRat 1 2 < r.score then "positive"
        else if r.label = "NEGATIVE" ∧ mkRat 1 2 < r.score then "negative"
        else "neutral") ∧
      (r.score = mkRat 1 2 → r.verdict = "neutral") := by
  intro json r j' h
  obtain ⟨t, ht⟩ := norm_ok_some h
  have hv : r.verdict = decideVerdict r.label r.score := interpretTop_verdict ht
  constructor
  · rw [hv]
    rfl
  · intro hs
    rw [hv]
    unfold decideVerdict
    rw [hs]
    simp [lt_irrefl]

/-- Witness for C1 at a concrete input whose single candidate scores
    exactly one half: the verdict is neutral. -/
theorem claim_C1_witness :
    normalizeHfResponse exHalfIn = .ok (some exHalfRes, exHalfIn) ∧
    (exHalfRes.verdict =
        (if exHalfRes.label = "POSITIVE" ∧ mkRat 1 2 < exHalfRes.score then "positive"
         else if exHalfRes.label = "NEGATIVE" ∧ mkRat 1 2 < exHalfRes.score then "negative"
         else "neutral") ∧
      (exHalfRes.score = mkRat 1 2 → exHalfRes.verdict = "neutral")) :=
  ⟨by rfl, claim_C1 exHalfIn exHalfRes exHalfIn (by rfl)⟩

/-- C2: for a candidate list with at least two entries whose comparator
    keys are all numeric, the verdict depends only on the first entry of
    maximal score: removing an entry of strictly lower score, or replacing
    it by any candidate of strictly lower score whatever its label, never
    changes the verdict. -/
theorem claim_C2 :
    ∀ (cs : List JsVal) (i : ℕ) (c' : JsVal) (hi : i < cs.length),
      2 ≤ cs.length →
      (∀ c ∈ cs, keyOk c = true) →
      keyOk c' = true →
      scoreKeyD (cs.get ⟨i, hi⟩) < scoreKeyD (topOfListD cs) →
      verdictOf (.arr [.arr (cs.eraseIdx i)]) = verdictOf (.arr [.arr cs]) ∧
        (scoreKeyD c' < scoreKeyD (topOfListD cs) →
          verdictOf (.arr [.arr (cs.set i c')]) = verdictOf (.arr [.arr cs])) := by
  intro cs i c' hi hlen hok hok' hlow
  have hne : cs ≠ [] := by
    intro e
    rw [e] at hlen
    simp at hlen
  constructor
  · have hne2 : cs.eraseIdx i ≠ [] := by
      intro e
      have hl : (cs.eraseIdx i).length = cs.length - 1 := List.length_eraseIdx_of_lt hi
      rw [e] at hl
      simp at hl
      omega
    have hok2 : ∀ c ∈ cs.eraseIdx i, keyOk c = true :=
      fun c hc => hok c (List.eraseIdx_subset cs i hc)
    rw [verdictOf_nested_of_keyOk hne2 hok2, verdictOf_nested_of_keyOk hne hok,
        topOfListD_eraseIdx cs i hi hlow]
  · intro hlow'
    have hne2 : cs.set i c' ≠ [] := by
      intro e
      have hl : (cs.set i c').length = cs.length := List.length_set cs i c'
      rw [e] at hl
      exact hne (List.length_eq_zero.mp hl.symm)
    have hok2 : ∀ c ∈ cs.set i c', keyOk c = true := by
      intro c hc
      rcases List.mem_or_eq_of_mem_set hc with hmem | rfl
      · exact hok c hmem
      · exact hok'
    rw [verdictOf_nested_of_keyOk hne2 hok2, verdictOf_nested_of_keyOk hne hok,
        topOfListD_set cs i hi c' hlow hlow']

/-- Witness for C2: in the list NEGATIVE 0.2, POSITIVE 0.9 the first entry
    scores strictly below the maximum, so erasing it or replacing it by a
    lower-scored candidate with an arbitrary label keeps the verdict. -/
theorem claim_C2_witness :
    2 ≤ ([objNegW, objPosW] : List JsVal).length ∧
    (∀ c ∈ ([objNegW, objPosW] : List JsVal), keyOk c = true) ∧
    keyOk objAltW = true ∧
    scoreKeyD (([objNegW, objPosW] : List JsVal).get ⟨0, by decide⟩) <
      scoreKeyD (topOfListD [objNegW, objPosW]) ∧
    (verdictOf (.arr [.arr (([objNegW, objPosW] : List JsVal).eraseIdx 0)]) =
        verdictOf (.arr [.arr [objNegW, objPosW]]) ∧
      (scoreKeyD objAltW < scoreKeyD (topOfListD [objNegW, objPosW]) →
        verdictOf (.arr [.arr (([objNegW, objPosW] : List JsVal).set 0 objAltW)]) =
          verdictOf (.arr [.arr [objNegW, objPosW]]))) :=
  ⟨by decide, by decide, by decide, by decide,
   claim_C2 [objNegW, objPosW] 0 objAltW (by decide) (by decide) (by decide) (by decide)
     (by decide)⟩

/-- C3: every degenerate input yields null: null and undefined (falsy
    inputs), the empty list, a list whose first element is an empty list,
    every non-array candidate source, and any input whose sorted top
    candidate is falsy or carries a non-string label. -/
theorem claim_C3 :
    normalizeHfResponse .null = .ok (none, .null) ∧
    normalizeHfResponse .undefined = .ok (none, .undefined) ∧
    normalizeHfResponse (.arr []) = .ok (none, .arr []) ∧
    normalizeHfResponse (.arr [.arr []]) = .ok (none, .arr [.arr []]) ∧
    (∀ j : JsVal, (∀ xs, j ≠ JsVal.arr xs) → normalizeHfResponse j = .ok (none, j)) ∧
    (∀ (cs rest s : List JsVal), cs ≠ [] → jsSort cs = .ok s →
      (JsVal.truthy s.headI = false ∨ (∀ t, labelOf s.headI ≠ .str t)) →
      normalizeHfResponse (.arr (.arr cs :: rest)) = .ok (none, .arr (.arr s :: rest))) := by
  refine ⟨rfl, rfl, rfl, rfl, fun j h => norm_not_arr h, ?_⟩
  intro cs rest s hne hs hbad
  have hie : cs.isEmpty = false := by
    cases cs with
    | nil => exact absurd rfl hne
    | cons a as => rfl
  have hrc : runCandidates cs = .ok (interpretTop s.headI, s) := by
    unfold runCandidates
    rw [hie, if_neg (by simp), hs]
    rfl
  have hit : interpretTop s.headI = none := by
    unfold interpretTop
    rcases hbad with hb | hb
    · rw [if_pos hb]
    · by_cases htr : JsVal.truthy s.headI = false
      · rw [if_pos htr]
      · rw [if_neg htr]
        cases hl : labelOf s.headI with
        | str t => exact absurd hl (hb t)
        | undefined => rfl
        | null => rfl
        | bool b => rfl
        | num q => rfl
        | arr l => rfl
        | obj fs => rfl
  rw [norm_nested, hrc, hit]
  rfl

/-- Witness for C3: a non-array input and a nested list whose top
    candidate is a number (truthy, but with no textual label) both give
    null. -/
theorem claim_C3_witness :
    ((JsVal.num (mkRat 3 1)).truthy = true → True) ∧
    (∀ xs, JsVal.num (mkRat 3 1) ≠ JsVal.arr xs) ∧
    normalizeHfResponse (.num (mkRat 3 1)) = .ok (none, .num (mkRat 3 1)) ∧
    ([JsVal.num (mkRat 7 1)] ≠ ([] : List JsVal)) ∧
    jsSort [JsVal.num (mkRat 7 1)] = .ok [JsVal.num (mkRat 7 1)] ∧
    normalizeHfResponse (.arr [.arr [.num (mkRat 7 1)]])
      = .ok (none, .arr [.arr [.num (mkRat 7 1)]]) :=
  ⟨fun _ => trivial,
   by intro xs; simp,
   claim_C3.2.2.2.2.1 (.num (mkRat 3 1)) (by intro xs; simp),
   by simp,
   by rfl,
   claim_C3.2.2.2.2.2 [JsVal.num (mkRat 7 1)] [] [JsVal.num (mkRat 7 1)]
     (by simp) (by rfl) (Or.inr (by intro t; simp [labelOf]))⟩

/-- C4: a flat array input is treated directly as the candidate list,
    producing the same result as the nested shape, and the flat example
    with one POSITIVE candidate at score 0.9 yields that candidate with
    verdict positive. -/
theorem claim_C4 :
    (∀ elems : List JsVal, (∀ inner rest, elems ≠ JsVal.arr inner :: rest) →
      Except.map Prod.fst (normalizeHfResponse (.arr elems)) =
        Except.map Prod.fst (normalizeHfResponse (.arr [.arr elems]))) ∧
    normalizeHfResponse (.arr [objPosW]) =
      .ok (some { label := "POSITIVE", score := mkRat 9 10, verdict := "positive" },
           .arr [objPosW]) := by
  constructor
  · intro elems h
    rw [norm_flat h, norm_nested]
    rcases runCandidates elems with e | p
    · rfl
    · rfl
  · rfl

/-- Witness for C4: the flat input with one POSITIVE object is not a
    nested shape, and gives the same result as its nested wrapping. -/
theorem claim_C4_witness :
    (∀ inner rest, ([objPosW] : List JsVal) ≠ JsVal.arr inner :: rest) ∧
    Except.map Prod.fst (normalizeHfResponse (.arr [objPosW])) =
      Except.map Prod.fst (normalizeHfResponse (.arr [.arr [objPosW]])) :=
  ⟨by intro inner rest; simp [objPosW],
   claim_C4.1 [objPosW] (by intro inner rest; simp [objPosW])⟩

theorem insertSorted_perm {x : JsVal} :
    ∀ {l z : List JsVal}, insertSorted x l = .ok z → z.Perm (x :: l) := by
  intro l
  induction l with
  | nil =>
    intro z h
    injection h with h
    rw [← h]
  | cons y ys ih =>
    intro z h
    unfold insertSorted at h
    rcases hc : jsCompare x y with e | c
    · rw [hc, errorBind] at h
      exact absurd h (by simp)
    · rw [hc, okBind] at h
      by_cases hle : c ≤ 0
      · rw [if_pos hle] at h
        rw [show (pure (x :: y :: ys) : Except Unit (List JsVal)) = Except.ok (x :: y :: ys)
              from rfl] at h
        injection h with h
        rw [← h]
      · rw [if_neg hle] at h
        rcases hz : insertSorted x ys with e | zs
        · rw [hz, errorBind] at h
          exact absurd h (by simp)
        · rw [hz, okBind] at h
          rw [show (pure (y :: zs) : Except Unit (List JsVal)) = Except.ok (y :: zs)
                from rfl] at h
          injection h with h
          rw [← h]
          exact ((ih hz).cons y).trans (List.Perm.swap x y ys)

theorem jsSort_perm : ∀ {cs s : List JsVal}, jsSort cs = .ok s → s.Perm cs := by
  intro cs
  induction cs with
  | nil =>
    intro s h
    injection h with h
    rw [← h]
  | cons x xs ih =>
    intro s h
    unfold jsSort at h
    rcases h0 : jsSort xs with e | s0
    · rw [h0, errorBind] at h
      exact absurd h (by simp)
    · rw [h0, okBind] at h
      exact (insertSorted_perm h).trans ((ih h0).cons x)

theorem runCandidates_perm {cs : List JsVal} {p : Option NormResult × List JsVal}
    (h : runCandidates cs = .ok p) : p.2.Perm cs := by
  unfold runCandidates at h
  split at h
  · injection h with h
    rw [← h]
  · rcases hs : jsSort cs with e | s
    · rw [hs] at h
      exact absurd h (by simp [Except.map])
    · rw [hs] at h
      rw [show (Except.ok s).map (fun s => (interpretTop s.headI, s))
            = .ok (interpretTop s.headI, s) from rfl] at h
      injection h with h
      rw [← h]
      exact jsSort_perm hs

/-- Counterexample to C5: the sort at line 106 reorders the candidate
    array in place, so on an input whose candidate list is not already in
    descending score order the argument after the call differs from the
    argument before it. -/
theorem claim_C5_cex :
    normalizeHfResponse exMixIn =
      .ok (some { label := "POSITIVE", score := mkRat 9 10, verdict := "positive" }, exMixOut) ∧
    exMixOut ≠ exMixIn := by
  constructor
  · rw [show exMixIn = .arr [.arr [objNegW, objPosW]] from rfl, norm_nested,
        runCandidates_of_keyOk (by simp) (by decide)]
    rfl
  · simp [exMixIn, exMixOut, objPosW, objNegW]

/-- C5 as amended: the normalizer is deterministic and touches no state
    besides its argument, and the only change it can make to the argument
    is reordering the candidate list in place: on every non-throwing call
    the argument after the call equals the argument before it up to a
    permutation of the candidate list, and a value that is not an array is
    returned unchanged. -/
theorem claim_C5_amended :
    (∀ (cs rest : List JsVal) (r : Option NormResult) (j' : JsVal),
      normalizeHfResponse (.arr (.arr cs :: rest)) = .ok (r, j') →
      ∃ cs', cs'.Perm cs ∧ j' = .arr (.arr cs' :: rest)) ∧
    (∀ (elems : List JsVal) (r : Option NormResult) (j' : JsVal),
      (∀ inner rest, elems ≠ JsVal.arr inner :: rest) →
      normalizeHfResponse (.arr elems) = .ok (r, j') →
      ∃ es', es'.Perm elems ∧ j' = .arr es') ∧
    (∀ (j : JsVal) (r : Option NormResult) (j' : JsVal),
      (∀ xs, j ≠ JsVal.arr xs) →
      normalizeHfResponse j = .ok (r, j') → j' = j) := by
  refine ⟨?_, ?_, ?_⟩
  · intro cs rest r j' h
    rw [norm_nested] at h
    rcases hrc : runCandidates cs with e | p
    · rw [hrc] at h
      exact absurd h (by simp [Except.map])
    · rw [hrc] at h
      rw [show (Except.ok p).map (fun p => (p.1, JsVal.arr (JsVal.arr p.2 :: rest)))
            = .ok (p.1, JsVal.arr (JsVal.arr p.2 :: rest)) from rfl] at h
      injection h with h
      exact ⟨p.2, runCandidates_perm hrc, (congrArg Prod.snd h).symm⟩
  · intro elems r j' hsh h
    rw [norm_flat hsh] at h
    rcases hrc : runCandidates elems with e | p
    · rw [hrc] at h
      exact absurd h (by simp [Except.map])
    · rw [hrc] at h
      rw [show (Except.ok p).map (fun p => (p.1, JsVal.arr p.2))
            = .ok (p.1, JsVal.arr p.2) from rfl] at h
      injection h with h
      exact ⟨p.2, runCandidates_perm hrc, (congrArg Prod.snd h).symm⟩
  · intro j r j' hsh h
    rw [norm_not_arr hsh] at h
    injection h with h
    exact (congrArg Prod.snd h).symm

/-- Witness for the amended C5 at the concrete reordered input. -/
theorem claim_C5_witness :
    normalizeHfResponse (.arr (.arr [objNegW, objPosW] :: [])) =
      .ok (some { label := "POSITIVE", score := mkRat 9 10, verdict := "positive" },
           .arr (.arr [objPosW, objNegW] :: [])) ∧
    ∃ cs', cs'.Perm [objNegW, objPosW] ∧
      JsVal.arr (.arr [objPosW, objNegW] :: []) = .arr (.arr cs' :: ([] : List JsVal)) :=
  ⟨by rw [norm_nested, runCandidates_of_keyOk (by simp) (by decide)]; rfl,
   claim_C5_amended.1 [objNegW, objPosW] []
     (some { label := "POSITIVE", score := mkRat 9 10, verdict := "positive" })
     (.arr (.arr [objPosW, objNegW] :: []))
     (by rw [norm_nested, runCandidates_of_keyOk (by simp) (by decide)]; rfl)⟩

/-- Counterexample to C6: on the JSON input with two null candidates the
    comparator reads the score property of null and the normalizer throws
    a TypeError instead of returning a record or null. -/
theorem claim_C6_cex :
    normalizeHfResponse (.arr [.arr [.null, .null]]) = .error () := by rfl

theorem cmpKey_isOk {c : JsVal} (h1 : c ≠ JsVal.null) (h2 : c ≠ JsVal.undefined) :
    ∃ v, cmpKey c = .ok v := by
  cases c with
  | null => exact absurd rfl h1
  | undefined => exact absurd rfl h2
  | bool b => exact ⟨_, rfl⟩
  | num q => exact ⟨_, rfl⟩
  | str s => exact ⟨_, rfl⟩
  | arr l => exact ⟨_, rfl⟩
  | obj fs => exact ⟨_, rfl⟩

theorem jsCompare_isOk {a b : JsVal}
    (ha : a ≠ JsVal.null ∧ a ≠ JsVal.undefined) (hb : b ≠ JsVal.null ∧ b ≠ JsVal.undefined) :
    ∃ q, jsCompare a b = .ok q := by
  obtain ⟨vb, hvb⟩ := cmpKey_isOk hb.1 hb.2
  obtain ⟨va, hva⟩ := cmpKey_isOk ha.1 ha.2
  unfold jsCompare
  rw [hvb, okBind, hva, okBind]
  exact ⟨_, rfl⟩

theorem insertSorted_isOk {x : JsVal} (hx : x ≠ JsVal.null ∧ x ≠ JsVal.undefined) :
    ∀ l : List JsVal, (∀ y ∈ l, y ≠ JsVal.null ∧ y ≠ JsVal.undefined) →
      ∃ z, insertSorted x l = .ok z
  | [], _ => ⟨[x], rfl⟩
  | y :: ys, hl => by
    obtain ⟨c, hc⟩ := jsCompare_isOk hx (hl y (List.mem_cons_self y ys))
    unfold insertSorted
    rw [hc, okBind]
    by_cases hle : c ≤ 0
    · rw [if_pos hle]
      exact ⟨_, rfl⟩
    · rw [if_neg hle]
      obtain ⟨zs, hzs⟩ :=
        insertSorted_isOk hx ys (fun z hz => hl z (List.mem_cons_of_mem y hz))
      rw [hzs, okBind]
      exact ⟨_, rfl⟩

theorem jsSort_isOk :
    ∀ cs : List JsVal, (∀ c ∈ cs, c ≠ JsVal.null ∧ c ≠ JsVal.undefined) →
      ∃ s, jsSort cs = .ok s
  | [], _ => ⟨[], rfl⟩
  | x :: xs, h => by
    obtain ⟨s0, hs0⟩ := jsSort_isOk xs (fun c hc => h c (List.mem_cons_of_mem x hc))
    have hmem : ∀ c ∈ s0, c ≠ JsVal.null ∧ c ≠ JsVal.undefined := fun c hc =>
      h c (List.mem_cons_of_mem x ((jsSort_perm hs0).mem_iff.mp hc))
    obtain ⟨z, hz⟩ := insertSorted_isOk (h x (List.mem_cons_self x xs)) s0 hmem
    refine ⟨z, ?_⟩
    unfold jsSort
    rw [hs0, okBind]
    exact hz

theorem runCandidates_isOk (cs : List JsVal)
    (h : ∀ c ∈ cs, c ≠ JsVal.null ∧ c ≠ JsVal.undefined) :
    ∃ p, runCandidates cs = .ok p := by
  cases cs with
  | nil => exact ⟨(none, []), rfl⟩
  | cons x xs =>
    obtain ⟨s, hs⟩ := jsSort_isOk (x :: xs) h
    refine ⟨(interpretTop s.headI, s), ?_⟩
    unfold runCandidates
    rw [if_neg (by simp), hs]
    rfl

theorem norm_isOk_of_flat {x : JsVal} {rest : List JsVal}
    (hx : ∀ inner, x ≠ JsVal.arr inner)
    (h : ∀ c ∈ x :: rest, c ≠ JsVal.null ∧ c ≠ JsVal.undefined) :
    ∃ p, normalizeHfResponse (.arr (x :: rest)) = .ok p := by
  have hne : ∀ inner rest2, (x :: rest) ≠ JsVal.arr inner :: rest2 := by
    intro inner rest2 he
    injection he with h1 h2
    exact hx inner h1
  obtain ⟨p, hp⟩ := runCandidates_isOk (x :: rest) h
  exact ⟨(p.1, JsVal.arr p.2), by rw [norm_flat hne, hp]; rfl⟩

/-- C6 as amended: the normalizer is total on every JSON input whose
    candidate list contains no null and no undefined entry: it then
    returns a record or null and never throws.  With two or more
    candidates among which a null occurs, the in-place sort reads the
    score property of null and the call throws a TypeError. -/
theorem claim_C6_amended :
    ∀ j : JsVal, (∀ c ∈ candidateList j, c ≠ JsVal.null ∧ c ≠ JsVal.undefined) →
      ∃ p, normalizeHfResponse j = .ok p := by
  intro j h
  by_cases harr : ∀ xs, j ≠ JsVal.arr xs
  · exact ⟨(none, j), norm_not_arr harr⟩
  · push_neg at harr
    obtain ⟨xs, rfl⟩ := harr
    cases xs with
    | nil => exact ⟨(none, .arr []), rfl⟩
    | cons x rest =>
      cases x with
      | arr inner =>
        obtain ⟨p, hp⟩ := runCandidates_isOk inner h
        exact ⟨(p.1, JsVal.arr (JsVal.arr p.2 :: rest)), by rw [norm_nested, hp]; rfl⟩
      | undefined => exact norm_isOk_of_flat (fun inner he => JsVal.noConfusion he) h
      | null => exact norm_isOk_of_flat (fun inner he => JsVal.noConfusion he) h
      | bool b => exact norm_isOk_of_flat (fun inner he => JsVal.noConfusion he) h
      | num q => exact norm_isOk_of_flat (fun inner he => JsVal.noConfusion he) h
      | str s => exact norm_isOk_of_flat (fun inner he => JsVal.noConfusion he) h
      | obj fs => exact norm_isOk_of_flat (fun inner he => JsVal.noConfusion he) h

/-- Witness for the amended C6: a mixed candidate list with an object, a
    number and a string, none of them null or undefined, gives a settled
    result. -/
theorem claim_C6_witness :
    (∀ c ∈ candidateList (.arr [.arr [objPosW, .num (mkRat 1 1), .str "x"]]),
      c ≠ JsVal.null ∧ c ≠ JsVal.undefined) ∧
    ∃ p, normalizeHfResponse (.arr [.arr [objPosW, .num (mkRat 1 1), .str "x"]]) = .ok p :=
  ⟨by simp [candidateList, candSrc, objPosW],
   claim_C6_amended (.arr [.arr [objPosW, .num (mkRat 1 1), .str "x"]])
     (by simp [candidateList, candSrc, objPosW])⟩

theorem specKeepRow_eq (r : JsVal) :
    specKeepRow r = if rowText r = "" then none else some (rowText r) := by
  unfold specKeepRow rowText
  by_cases ht : r.truthy = false
  · rw [if_pos ht, if_pos ht, if_pos rfl]
  · rw [if_neg ht, if_neg ht]
    cases hp : propD r "text" with
    | str s => rfl
    | undefined => rw [if_pos rfl]
    | null => rw [if_pos rfl]
    | bool b => rw [if_pos rfl]
    | num q => rw [if_pos rfl]
    | arr l => rw [if_pos rfl]
    | obj fs => rw [if_pos rfl]

theorem extractTexts_eq_filterMap :
    ∀ rows : List JsVal, extractTexts rows = rows.filterMap specKeepRow := by
  intro rows
  induction rows with
  | nil => rfl
  | cons r rs ih =>
    unfold extractTexts at ih ⊢
    rw [List.map_cons, List.filter_cons, List.filterMap_cons, specKeepRow_eq]
    by_cases he : rowText r = ""
    · rw [he]
      simp only [if_pos rfl]
      rw [if_neg (by decide)]
      exact ih
    · have hlen : 0 < (rowText r).length := by
        have hd : (rowText r).data ≠ [] := by
          intro hdnil
          exact he (String.ext hdnil)
        exact List.length_pos.mpr hd
      rw [if_neg he, if_pos (decide_eq_true hlen), ih]

/-- C7: ingestion keeps exactly the rows whose text field is a string that
    is non-empty after trimming, collects the trimmed survivors in file
    order, and sets the loaded flag iff at least one survivor exists; on
    the example rows the survivors are good and bad movie. -/
theorem claim_C7 :
    (∀ rows : List JsVal, (ingestRows rows).reviews = rows.filterMap specKeepRow) ∧
    (∀ rows : List JsVal, (ingestRows rows).loaded = !(rows.filterMap specKeepRow).isEmpty) ∧
    ingestRows exRows = { reviews := ["good", "bad movie"], loaded := true } := by
  refine ⟨?_, ?_, ?_⟩
  · intro rows
    exact extractTexts_eq_filterMap rows
  · intro rows
    show decide (0 < (extractTexts rows).length) = _
    rw [extractTexts_eq_filterMap rows]
    cases rows.filterMap specKeepRow with
    | nil => rfl
    | cons t ts => simp
  · rfl

/-- C8: while the Store is not loaded or holds no review, analyzeRandom
    surfaces the reload instruction, issues no network request, and leaves
    the Store unchanged. -/
theorem claim_C8 :
    ∀ (store : Store) (token : String) (pick : ℕ) (fo : FetchOutcome),
      store.loaded = false ∨ store.reviews.length = 0 →
      (analyzeRandom store token pick fo).request = none ∧
      (analyzeRandom store token pick fo).errorMsg = some notLoadedMsg ∧
      (analyzeRandom store token pick fo).store = store := by
  intro store token pick fo h
  unfold analyzeRandom
  rw [if_pos h]
  exact ⟨rfl, rfl, rfl⟩

/-- Witness for C8 at the empty, not loaded Store. -/
theorem claim_C8_witness :
    ((Store.mk [] false).loaded = false ∨ (Store.mk [] false).reviews.length = 0) ∧
    ((analyzeRandom (Store.mk [] false) "tok" 0 (.netError "down")).request = none ∧
     (analyzeRandom (Store.mk [] false) "tok" 0 (.netError "down")).errorMsg
        = some notLoadedMsg ∧
     (analyzeRandom (Store.mk [] false) "tok" 0 (.netError "down")).store
        = Store.mk [] false) :=
  ⟨Or.inl rfl, claim_C8 (Store.mk [] false) "tok" 0 (.netError "down") (Or.inl rfl)⟩

/-- C9: on every invocation of analyzeRandom that finishes without an
    uncaught exception, if the busy marker was set it is cleared before
    the invocation finishes; this covers the success, network failure,
    non-success status and invalid JSON paths. -/
theorem claim_C9 :
    ∀ (store : Store) (token : String) (pick : ℕ) (fo : FetchOutcome),
      (analyzeRandom store token pick fo).threw = false →
      (analyzeRandom store token pick fo).busySet = true →
      (analyzeRandom store token pick fo).busyFinal = some false := by
  intro store token pick fo hthrew hbusy
  unfold analyzeRandom at hthrew hbusy ⊢
  by_cases hpre : store.loaded = false ∨ store.reviews.length = 0
  · rw [if_pos hpre] at hbusy
    exact absurd hbusy (by simp)
  · rw [if_neg hpre] at hthrew hbusy ⊢
    cases fo with
    | netError m => rfl
    | response status body =>
      dsimp only at hthrew ⊢
      by_cases hst : status < 200 ∨ 299 < status
      · rw [if_pos hst]
      · rw [if_neg hst] at hthrew ⊢
        cases body with
        | error e => rfl
        | ok data =>
          dsimp only at hthrew ⊢
          cases hn : normalizeHfResponse data with
          | error e =>
            rw [hn] at hthrew
            exact absurd hthrew (by simp)
          | ok p => rfl

/-- Witness for C9 on a successful call over a loaded Store. -/
theorem claim_C9_witness :
    (analyzeRandom (Store.mk ["nice"] true) "" 0 (.response 200 (.ok .null))).threw = false ∧
    (analyzeRandom (Store.mk ["nice"] true) "" 0 (.response 200 (.ok .null))).busySet = true ∧
    (analyzeRandom (Store.mk ["nice"] true) "" 0 (.response 200 (.ok .null))).busyFinal
      = some false :=
  ⟨rfl, rfl, claim_C9 (Store.mk ["nice"] true) "" 0 (.response 200 (.ok .null)) rfl rfl⟩

/-- C10: the promise returned by loadTSV resolves on every outcome of the
    parse: completion with rows, completion with no usable rows, a throw
    inside the completion handler, and a transport failure; it never
    rejects. -/
theorem claim_C10 :
    ∀ pa : ParseOutcome, (loadTSV pa).promise = PromiseState.resolved := by
  intro pa
  cases pa with
  | failure m => rfl
  | complete results =>
    cases hr : rowsOf results with
    | error e => simp [loadTSV, hr]
    | ok rows =>
      by_cases hl : (ingestRows rows).loaded = true
      · simp [loadTSV, hr, hl]
      · simp [loadTSV, hr, hl]
